import Mathlib

/-!
Verification of the devspin service orchestrator core: the dependency
resolver, the process registry, and the `start` command sequence.

The definitions below are a shallow embedding of the Rust sources:
  - `src/devspin_cli/src/configs/yaml_parser.rs` (config data model)
  - `src/devspin_cli/src/cli/start.rs` (resolver, orchestrator, health probes)
  - `src/devspin_cli/src/process/state.rs` (process registry)

Modelling conventions:
  - `HashMap<u32, RunningProcess>` is modelled as an association list whose
    insert replaces any entry with the same key; `HashSet<&str>` is modelled
    as a `List String` of which only membership is ever observed.
  - Impure inputs (the system clock, `std::process::Command::spawn`, file
    system and env-file loading) are passed in as explicit parameters or
    oracle functions.
  - Observable actions other than console prints (spawning, registering,
    sleeping, network probes) are recorded in an `Effect` trace.
  - The Rust recursion of `visit_service` is embedded with an explicit fuel
    parameter; `visit_fuel_irrel` below shows that any fuel larger than the
    number of services gives the same result, so the fuel is immaterial.
-/

namespace Devspin

/-- Health check declaration (yaml_parser.rs, `struct HealthCheck`):
`type_entry : String`, `port : Option<i16>`, `http_target : String`. -/
structure HealthCheck where
  type_entry : String
  port : Option Int
  http_target : String
deriving DecidableEq, Repr

/-- Service declaration (yaml_parser.rs, `struct Service`). -/
structure Service where
  name : String
  service_type : String
  command : String
  working_dir : Option String
  health_check : Option HealthCheck
  dependencies : List String
deriving DecidableEq, Repr

/-- Project configuration (yaml_parser.rs, `struct ProjectConfig`).
The `commands` and `hooks` fields are never read by the orchestration code
modelled here and are omitted; `base_path` is modelled as a string. -/
structure ProjectConfig where
  name : String
  description : Option String
  services : Option (List Service)
  environment : Option (List (String × String))
  base_path : Option String
deriving DecidableEq, Repr

/-- `ProjectConfig::resolve_path` (yaml_parser.rs): join the relative path
onto the base path when one is set.  `Path::join` is modelled as string
concatenation with a separator. -/
def resolve_path (project : ProjectConfig) (relative_path : String) : String :=
  match project.base_path with
  | some base_path => base_path ++ "/" ++ relative_path
  | none => relative_path

/-- `start.rs`, `find` inside `visit_service`:
`all_services.iter().find(|s| &s.name == dep_name)`. -/
def findService (all : List Service) (dep_name : String) : Option Service :=
  all.find? (fun s => s.name == dep_name)

/-- `start.rs`, `fn visit_service`, embedded with a fuel parameter.
The state is the pair (visited, sorted): the `HashSet` of visited names
and the output vector.  Marking happens before recursing into the
dependencies, and the service itself is pushed afterwards. -/
def visitService : Nat → List Service → Service → List String × List Service →
    List String × List Service
  | 0, _, _, st => st
  | Nat.succ fuel, all, service, st =>
    if service.name ∈ st.1 then st
    else
      let st1 : List String × List Service := (service.name :: st.1, st.2)
      let st2 := service.dependencies.foldl
        (fun acc dep_name =>
          match findService all dep_name with
          | some dep_service => visitService fuel all dep_service acc
          | none => acc) st1
      (st2.1, st2.2 ++ [service])

/-- The loop of `fn sort_services_by_dependencies`: visit every service of
the input in declaration order, threading the (visited, sorted) state. -/
def runSort (fuel : Nat) (all : List Service) (services : List Service)
    (st : List String × List Service) : List String × List Service :=
  services.foldl (fun st s => visitService fuel all s st) st

/-- `start.rs`, `fn sort_services_by_dependencies`.  The fuel
`services.length + 1` always suffices (see `visit_fuel_irrel` and
`sort_fuel_stable`). -/
def sort_services_by_dependencies (services : List Service) : List Service :=
  (runSort (services.length + 1) services services ([], [])).2

/-- The dependency edge relation induced by a service list: `s` depends on
`t` when one of the declared dependency names of `s` resolves (via
`findService`, i.e. first match in declaration order) to `t`. -/
def EdgeRel (all : List Service) (s t : Service) : Prop :=
  ∃ d ∈ s.dependencies, findService all d = some t

/-- The resolvable dependency graph has no (nonempty) cycle. -/
def Acyclic (all : List Service) : Prop :=
  ∀ s, ¬ Relation.TransGen (EdgeRel all) s s

/-- Topological soundness of an output list: every occurrence of a service
in the list is preceded by every service that one of its dependency names
resolves to. -/
def depsBefore (all : List Service) (l : List Service) : Prop :=
  ∀ l₁ s l₂, l = l₁ ++ s :: l₂ → ∀ d ∈ s.dependencies, ∀ t,
    findService all d = some t → t ∈ l₁

/-- The number of distinct service names not yet visited; the recursion
depth of `visit_service` is bounded by it. -/
def unvisitedCard (all : List Service) (visited : List String) : Nat :=
  ((all.map Service.name).toFinset.filter (fun n => n ∉ visited)).card

/-- Invariant of the DFS state.  `visited` is exactly the black names
(already output) together with the grey names (`stackNames`: marked, still
on the recursion stack); every output service is the canonical resolution
of its own name (`findService` maps its name back to it); output names are
distinct; grey names are not yet output. -/
structure SortInv (all : List Service) (visited : List String)
    (sorted : List Service) (stackNames : List String) : Prop where
  cover : ∀ n, n ∈ visited ↔ (n ∈ sorted.map Service.name ∨ n ∈ stackNames)
  canon : ∀ t ∈ sorted, findService all t.name = some t
  nodupNames : (sorted.map Service.name).Nodup
  disj : ∀ n ∈ stackNames, n ∉ sorted.map Service.name

/-- `state.rs`, `enum ProcessStatus`. -/
inductive ProcessStatus where
  | Running
  | Stopped
  | Error (msg : String)
deriving DecidableEq, Repr

/-- `state.rs`, `struct ProcessInfo`.  `start_time : SystemTime` is
modelled as a natural number supplied by the caller. -/
structure ProcessInfo where
  pid : Nat
  service_name : String
  project_name : String
  command : String
  start_time : Nat
  status : ProcessStatus
deriving DecidableEq, Repr

/-- An OS process handle (`std::process::Child`); only its id is observable
to the registry code. -/
structure Child where
  id : Nat
deriving DecidableEq, Repr

/-- `state.rs`, `struct RunningProcess`. -/
structure RunningProcess where
  info : ProcessInfo
  child : Child
deriving DecidableEq, Repr

/-- `state.rs`, `struct ProcessState`: a `HashMap<u32, RunningProcess>`
modelled as an association list with replace-on-insert. -/
structure ProcessState where
  processes : List (Nat × RunningProcess)
deriving DecidableEq, Repr

/-- `ProcessState::new`. -/
def ProcessState.new : ProcessState := ⟨[]⟩

/-- `state.rs`, `fn add_process`: build a `ProcessInfo` with status
`Running` and insert it keyed by the child's pid (replacing any entry with
that key, as `HashMap::insert` does); always returns `Ok(())`. -/
def add_process (st : ProcessState) (child : Child)
    (service_name project_name command : String) (now : Nat) :
    Except String Unit × ProcessState :=
  let pid := child.id
  let process_info : ProcessInfo :=
    { pid := pid, service_name := service_name, project_name := project_name,
      command := command, start_time := now, status := ProcessStatus.Running }
  (Except.ok (),
    ⟨(pid, { info := process_info, child := child }) ::
      st.processes.filter (fun e => e.1 != pid)⟩)

/-- `state.rs`, `fn remove_process`: `HashMap::remove`, ignoring whether the
key was present; always returns `Ok(())`. -/
def remove_process (st : ProcessState) (pid : Nat) :
    Except String Unit × ProcessState :=
  (Except.ok (), ⟨st.processes.filter (fun e => e.1 != pid)⟩)

/-- `state.rs`, `fn process_count`. -/
def process_count (st : ProcessState) : Nat :=
  st.processes.length

/-- `state.rs`, `fn is_service_running`: some record matches the project
name, the service name, and has status `Running`. -/
def is_service_running (st : ProcessState) (project_name service_name : String) :
    Bool :=
  st.processes.any (fun e =>
    e.2.info.project_name == project_name &&
    e.2.info.service_name == service_name &&
    (match e.2.info.status with
     | ProcessStatus.Running => true
     | _ => false))

/-- `state.rs`, `fn get_project_processes` (as a snapshot query): records of
the project whose status is `Running`. -/
def get_project_processes (st : ProcessState) (project_name : String) :
    List RunningProcess :=
  (st.processes.map Prod.snd).filter (fun p =>
    p.info.project_name == project_name &&
    (match p.info.status with
     | ProcessStatus.Running => true
     | _ => false))

/-- `state.rs`, `fn get_all_processes` (as a snapshot query). -/
def get_all_processes (st : ProcessState) : List RunningProcess :=
  st.processes.map Prod.snd

/-- Lookup by pid in the registry map. -/
def lookupProcess (st : ProcessState) (pid : Nat) : Option RunningProcess :=
  (st.processes.find? (fun e => e.1 == pid)).map Prod.snd

/-- `error.rs`, `enum ToolError`. -/
inductive ToolError where
  | ProjectNotFound (msg : String)
  | ConfigError (msg : String)
  | ProcessError (msg : String)
  | NetworkError (msg : String)
  | FileRead (msg : String)
  | ParseError (msg : String)
  | ValidationError (msg : String)
  | GenericError (msg : String)
deriving DecidableEq, Repr

/-- `start.rs`, `struct StartArgs`. -/
structure StartArgs where
  name : String
  env : Option String
  verbose : Bool
  background : Bool
  dry_run : Bool
  only : Option (List String)
  skip : Option (List String)
deriving DecidableEq, Repr

/-- `start.rs`, `fn should_start_service`: filtered out when an `only` list
is present and does not contain the name, or a `skip` list contains it. -/
def should_start_service (args : StartArgs) (service : Service) : Bool :=
  (match args.only with
   | some only_services => only_services.contains service.name
   | none => true) &&
  (match args.skip with
   | some skip_services => !skip_services.contains service.name
   | none => true)

/-- `start.rs`, `fn validate_args`: reject simultaneous filters, then empty
names in either filter.  The per-element loops of the source are folded
into `any` since every iteration produces the same error value. -/
def validate_args (args : StartArgs) : Except ToolError Unit :=
  if args.only.isSome && args.skip.isSome then
    Except.error (ToolError.ConfigError
      ("Cannot use both --only and --skip filters simultaneously"))
  else if (args.only.getD []).any (fun s => s.trim.isEmpty) then
    Except.error (ToolError.ConfigError ("Empty service name in --only filter"))
  else if (args.skip.getD []).any (fun s => s.trim.isEmpty) then
    Except.error (ToolError.ConfigError ("Empty service name in --skip filter"))
  else
    Except.ok ()

/-- Observable actions of the orchestrator, console prints excluded.
`tcpConnect` and `httpGet` are the probe actions a genuine health check
would perform; the sources never emit them. -/
inductive Effect where
  | tcpConnect (port : Int)
  | httpGet (url : String)
  | spawn (service : String) (command : String) (working_dir : String)
  | register (pid : Nat) (service : String) (project : String)
  | sleep (ms : Nat)
deriving DecidableEq, Repr

/-- The services named by the spawn effects of a trace, in order. -/
def spawnedServices (tr : List Effect) : List String :=
  tr.filterMap (fun e =>
    match e with
    | Effect.spawn s _ _ => some s
    | _ => none)

/-- `start.rs`, `fn wait_for_port_health_check`: when a port is configured,
sleep one second and return `Ok`; otherwise return `Ok` at once.  No
connection is ever attempted and no timeout error is ever produced. -/
def wait_for_port_health_check (health_check : HealthCheck) :
    Except ToolError Unit × List Effect :=
  match health_check.port with
  | some _ => (Except.ok (), [Effect.sleep 1000])
  | none => (Except.ok (), [])

/-- `start.rs`, `fn wait_for_http_health_check`: a fixed two-second sleep. -/
def wait_for_http_health_check (_health_check : HealthCheck) :
    Except ToolError Unit × List Effect :=
  (Except.ok (), [Effect.sleep 2000])

/-- `start.rs`, `fn wait_for_health_check`: dispatch on the kind string;
anything unrecognized succeeds after a log line. -/
def wait_for_health_check (_service : Service) (health_check : HealthCheck) :
    Except ToolError Unit × List Effect :=
  match health_check.type_entry with
  | "http" => wait_for_http_health_check health_check
  | "port" => wait_for_port_health_check health_check
  | _ => (Except.ok (), [])

/-- `start.rs`, `fn wait_for_dependencies`: for each declared dependency,
query the registry once; when the dependency is not reported running, sleep
one second; then move on.  Always returns `Ok(())`. -/
def wait_for_dependencies (service : Service) (process_state : ProcessState)
    (project_name : String) : Except ToolError Unit × List Effect :=
  (Except.ok (),
    service.dependencies.foldl
      (fun acc dep_name =>
        if is_service_running process_state project_name dep_name then acc
        else acc ++ [Effect.sleep 1000]) [])

/-- Working-directory resolution shared by both start paths: the declared
relative directory joined to the project base, else the base itself,
else ".". -/
def resolve_working_dir (project : ProjectConfig) (service : Service) : String :=
  match service.working_dir with
  | some service_dir => resolve_path project service_dir
  | none => (project.base_path).getD "."

/-- `start.rs`, `fn spawn_service_command`: shell out `sh -c <command>` in
the resolved working directory with the merged environment.  The OS
outcome is supplied by the `spawner` oracle; the attempt is recorded. -/
def spawn_service_command (spawner : Service → Except ToolError Child)
    (service : Service) (working_dir : String) :
    Except ToolError Child × List Effect :=
  (spawner service, [Effect.spawn service.name service.command working_dir])

/-- The loop body of `fn start_services`: per service in resolved order,
skip it when filtered out, otherwise wait on dependencies, spawn (a spawn
failure aborts the remaining sequence), register, and run the declared
health check. -/
def run_services (args : StartArgs) (project : ProjectConfig)
    (spawner : Service → Except ToolError Child) (now : Nat) :
    List Service → ProcessState → List Effect →
    Except ToolError Unit × ProcessState × List Effect
  | [], st, tr => (Except.ok (), st, tr)
  | service :: rest, st, tr =>
    if should_start_service args service then
      let dep_wait := wait_for_dependencies service st project.name
      let working_dir := resolve_working_dir project service
      let sp := spawn_service_command spawner service working_dir
      let tr2 := tr ++ dep_wait.2 ++ sp.2
      match sp.1 with
      | Except.error e => (Except.error e, st, tr2)
      | Except.ok child =>
        let add := add_process st child service.name project.name service.command now
        let tr3 := tr2 ++ [Effect.register child.id service.name project.name]
        match service.health_check with
        | some health_check =>
          let hc := wait_for_health_check service health_check
          run_services args project spawner now rest add.2 (tr3 ++ hc.2)
        | none => run_services args project spawner now rest add.2 tr3
    else
      run_services args project spawner now rest st tr

/-- `start.rs`, `fn start_services`: resolve the dependency order, then run
the per-service sequence over it. -/
def start_services (args : StartArgs) (project : ProjectConfig)
    (spawner : Service → Except ToolError Child) (now : Nat)
    (process_state : ProcessState) :
    Except ToolError Unit × ProcessState × List Effect :=
  match project.services with
  | some services =>
    run_services args project spawner now
      (sort_services_by_dependencies services) process_state []
  | none => (Except.ok (), process_state, [])

/-- The loop of `fn start_in_background`: spawn each pre-collected service,
register it on success (a failure is only logged), and sleep 300 ms between
services.  No dependency wait and no health check is performed. -/
def run_background (project_name : String) (project : ProjectConfig)
    (spawner : Service → Except ToolError Child) (now : Nat) :
    List Service → ProcessState → List Effect → ProcessState × List Effect
  | [], st, tr => (st, tr)
  | service :: rest, st, tr =>
    let working_dir := resolve_working_dir project service
    let sp := spawn_service_command spawner service working_dir
    let tr1 := tr ++ sp.2
    match sp.1 with
    | Except.ok child =>
      let add := add_process st child service.name project_name service.command now
      run_background project_name project spawner now rest add.2
        (tr1 ++ [Effect.register child.id service.name project_name] ++
          [Effect.sleep 300])
    | Except.error _ =>
      run_background project_name project spawner now rest st
        (tr1 ++ [Effect.sleep 300])

/-- `start.rs`, `fn start_in_background`: filter the services in declaration
order (no dependency resolution), run the background loop over them, and
return `Ok`. -/
def start_in_background (args : StartArgs) (project : ProjectConfig)
    (spawner : Service → Except ToolError Child) (now : Nat)
    (st : ProcessState) :
    Except ToolError Unit × ProcessState × List Effect :=
  let services_to_start :=
    (project.services.getD []).filter (fun s => should_start_service args s)
  let res := run_background project.name project spawner now services_to_start st []
  (Except.ok (), res.1, res.2)

/-- `start.rs`, `fn execute`: validate the arguments, check that the config
file exists, load the project, short-circuit on dry-run, load the env file
when given, then run either the background or the foreground path.  The
file system, parser and env loader are supplied as oracle values; the
console messages are elided. -/
def execute (args : StartArgs) (config_exists : Bool)
    (load_project : Except ToolError ProjectConfig)
    (load_env : Except ToolError Unit)
    (spawner : Service → Except ToolError Child) (now : Nat)
    (global_state : ProcessState) :
    Except ToolError Unit × ProcessState × List Effect :=
  match validate_args args with
  | Except.error e => (Except.error e, global_state, [])
  | Except.ok _ =>
    if !config_exists then
      (Except.error (ToolError.ConfigError ("project file not found")),
        global_state, [])
    else
      match load_project with
      | Except.error e => (Except.error e, global_state, [])
      | Except.ok project =>
        if args.dry_run then
          (Except.ok (), global_state, [])
        else
          match (match args.env with
                 | some _ => load_env
                 | none => Except.ok ()) with
          | Except.error e => (Except.error e, global_state, [])
          | Except.ok _ =>
            if args.background then
              start_in_background args project spawner now global_state
            else
              start_services args project spawner now global_state

/-- Registry states reachable through the operations of `ProcessState`
(`new`, `add_process`, `remove_process`; the remaining operations are
read-only queries). -/
inductive Reachable : ProcessState → Prop
  | new : Reachable ProcessState.new
  | add (st : ProcessState) (child : Child)
      (service_name project_name command : String) (now : Nat) :
      Reachable st →
      Reachable (add_process st child service_name project_name command now).2
  | remove (st : ProcessState) (pid : Nat) : Reachable st →
      Reachable (remove_process st pid).2

/-- Independent service of the C4 background counterexample and the C1
topological witness family: no dependencies. -/
def bgSvcA : Service :=
  { name := "a", service_type := "database", command := "run-a",
    working_dir := none, health_check := none, dependencies := [] }

/-- The dependent service of the background counterexample. -/
def bgSvcB : Service :=
  { name := "b", service_type := "web", command := "run-b",
    working_dir := none, health_check := none, dependencies := ["a"] }

/-- The counterexample project, declaring [b, a]. -/
def bgProject : ProjectConfig :=
  { name := "demo", description := none, services := some [bgSvcB, bgSvcA],
    environment := none, base_path := none }

/-- Arguments of the counterexample, parameterized by the background flag. -/
def bgArgs (background : Bool) : StartArgs :=
  { name := "demo", env := none, verbose := false, background := background,
    dry_run := false, only := none, skip := none }

/-- A spawner oracle that always succeeds. -/
def bgSpawner : Service → Except ToolError Child :=
  fun s => Except.ok { id := if s.name == "a" then 1 else 2 }

/-- Concrete cyclic services for the C6 witness. -/
def cycSvcA : Service :=
  { name := "a", service_type := "api", command := "run-a",
    working_dir := none, health_check := none, dependencies := ["b"] }

/-- Second half of the two-cycle of the C6 witness. -/
def cycSvcB : Service :=
  { name := "b", service_type := "api", command := "run-b",
    working_dir := none, health_check := none, dependencies := ["a"] }

/-- Independent service of the C1 witness. -/
def topoSvcA : Service :=
  { name := "a", service_type := "database", command := "run-a",
    working_dir := none, health_check := none, dependencies := [] }

/-- Dependent service of the C1 witness. -/
def topoSvcB : Service :=
  { name := "b", service_type := "web", command := "run-b",
    working_dir := none, health_check := none, dependencies := ["a"] }

/-! ## Process registry theorems -/

/-- C5: registering a process makes `is_service_running` answer `true` for
the same project and service names, because `add_process` inserts a record
with status `Running` keyed by the process id. -/
theorem add_process_then_is_running (st : ProcessState) (child : Child)
    (service_name project_name command : String) (now : Nat) :
    is_service_running (add_process st child service_name project_name command now).2
      project_name service_name = true ∧
    lookupProcess (add_process st child service_name project_name command now).2
        child.id
      = some { info := { pid := child.id, service_name := service_name,
                         project_name := project_name, command := command,
                         start_time := now, status := ProcessStatus.Running },
               child := child } := by
  constructor
  · simp [add_process, is_service_running]
  · simp [add_process, lookupProcess, List.find?]

/-- `find?` by one key is unaffected by filtering out a different key. -/
theorem find?_filter_ne (l : List (Nat × RunningProcess)) (pid pid' : Nat)
    (h : pid' ≠ pid) :
    (l.filter (fun e => e.1 != pid)).find? (fun e => e.1 == pid')
      = l.find? (fun e => e.1 == pid') := by
  induction l with
  | nil => rfl
  | cons e rest ih =>
    rw [List.filter_cons]
    cases hb : (e.1 != pid) with
    | false =>
      have he : e.1 = pid := by simpa using hb
      have h2 : (e.1 == pid') = false := by
        rw [beq_eq_false_iff_ne, he]
        exact fun hc => h hc.symm
      rw [if_neg (by simp [hb])]
      rw [List.find?_cons_of_neg _ (by simp [h2])]
      exact ih
    | true =>
      rw [if_pos (by simp [hb])]
      cases h2 : (e.1 == pid') with
      | true =>
        rw [List.find?_cons_of_pos _ (by simp [h2]),
          List.find?_cons_of_pos _ (by simp [h2])]
      | false =>
        rw [List.find?_cons_of_neg _ (by simp [h2]),
          List.find?_cons_of_neg _ (by simp [h2])]
        exact ih

/-- C10: `add_process` is total and never fails: it returns `Ok(())` on
every input, the entry stored under the child's pid is the freshly built
`Running` record (silently replacing any previous entry with that pid),
and entries under every other pid are untouched. -/
theorem add_process_total_and_replaces (st : ProcessState) (child : Child)
    (service_name project_name command : String) (now : Nat) :
    (add_process st child service_name project_name command now).1
      = Except.ok () ∧
    lookupProcess (add_process st child service_name project_name command now).2
        child.id
      = some { info := { pid := child.id, service_name := service_name,
                         project_name := project_name, command := command,
                         start_time := now, status := ProcessStatus.Running },
               child := child } ∧
    ∀ pid', pid' ≠ child.id →
      lookupProcess (add_process st child service_name project_name command now).2
          pid'
        = lookupProcess st pid' := by
  refine ⟨rfl, by simp [add_process, lookupProcess, List.find?], ?_⟩
  intro pid' hne
  have h2 : (child.id == pid') = false := by
    simp only [beq_eq_false_iff_ne, ne_eq]
    exact fun hc => hne hc.symm
  simp [add_process, lookupProcess, List.find?, h2,
    find?_filter_ne st.processes child.id pid' hne]

/-- C9: in every reachable registry state all records have status
`Running` (no operation ever transitions a record to `Stopped` or
`Error`), so `is_service_running` is equivalent to the mere existence of a
record with the given project and service names. -/
theorem registry_records_always_running (st : ProcessState) (h : Reachable st) :
    (∀ e ∈ st.processes, e.2.info.status = ProcessStatus.Running) ∧
    (∀ project_name service_name,
      is_service_running st project_name service_name = true ↔
        ∃ e ∈ st.processes, e.2.info.project_name = project_name ∧
          e.2.info.service_name = service_name) := by
  have hrun : ∀ e ∈ st.processes, e.2.info.status = ProcessStatus.Running := by
    induction h with
    | new => simp [ProcessState.new]
    | add st child sn pn cmd now _ ih =>
      intro e he
      simp only [add_process, List.mem_cons] at he
      rcases he with he | he
      · subst he; rfl
      · exact ih e (List.mem_of_mem_filter he)
    | remove st pid _ ih =>
      intro e he
      simp only [remove_process] at he
      exact ih e (List.mem_of_mem_filter he)
  refine ⟨hrun, ?_⟩
  intro project_name service_name
  rw [is_service_running, List.any_eq_true]
  constructor
  · rintro ⟨e, he, hpred⟩
    simp only [Bool.and_eq_true, beq_iff_eq] at hpred
    exact ⟨e, he, hpred.1.1, hpred.1.2⟩
  · rintro ⟨e, he, h1, h2⟩
    refine ⟨e, he, ?_⟩
    simp [h1, h2, hrun e he]

/-- Witness for C9 at a concrete reachable state. -/
theorem registry_records_always_running_witness :
    (∀ e ∈ ((add_process ProcessState.new { id := 7 } "web" "demo"
        "npm run dev" 0).2).processes,
      e.2.info.status = ProcessStatus.Running) ∧
    (∀ project_name service_name,
      is_service_running
          (add_process ProcessState.new { id := 7 } "web" "demo"
            "npm run dev" 0).2 project_name service_name = true ↔
        ∃ e ∈ ((add_process ProcessState.new { id := 7 } "web" "demo"
            "npm run dev" 0).2).processes,
          e.2.info.project_name = project_name ∧
            e.2.info.service_name = service_name) :=
  registry_records_always_running _
    (Reachable.add ProcessState.new { id := 7 } "web" "demo" "npm run dev" 0
      Reachable.new)

/-! ## Argument validation and the execute path -/

/-- C8: when both `--only` and `--skip` are supplied, `execute` fails with
the configuration error before anything else happens: the returned registry
state is the input state and the effect trace is empty, so no process was
spawned and the registry was not modified. -/
theorem execute_conflicting_filters (args : StartArgs) (config_exists : Bool)
    (load_project : Except ToolError ProjectConfig)
    (load_env : Except ToolError Unit)
    (spawner : Service → Except ToolError Child) (now : Nat)
    (global_state : ProcessState) (onlyList skipList : List String)
    (honly : args.only = some onlyList) (hskip : args.skip = some skipList) :
    execute args config_exists load_project load_env spawner now global_state
      = (Except.error (ToolError.ConfigError
          ("Cannot use both --only and --skip filters simultaneously")),
         global_state, []) := by
  unfold execute validate_args
  simp [honly, hskip]

/-- Witness for C8 at concrete arguments carrying both filters. -/
theorem execute_conflicting_filters_witness :
    execute { name := "demo", env := none, verbose := false, background := false,
              dry_run := false, only := some ["api"], skip := some ["db"] }
        true (Except.ok { name := "demo", description := none, services := none,
                          environment := none, base_path := none })
        (Except.ok ()) (fun _ => Except.ok { id := 1 }) 0 ProcessState.new
      = (Except.error (ToolError.ConfigError
          ("Cannot use both --only and --skip filters simultaneously")),
         ProcessState.new, []) :=
  execute_conflicting_filters _ _ _ _ _ _ _ ["api"] ["db"] rfl rfl

/-! ## Health probe and dependency wait behavior -/

/-- C2 (code bug): `wait_for_port_health_check` is a fixed sleep.  It
returns `Ok` on every input — in particular when the target port never
opens — its whole trace is a single one-second sleep (or nothing when no
port is configured), and it never attempts a TCP connection. -/
theorem port_health_check_is_fixed_sleep (health_check : HealthCheck) :
    (wait_for_port_health_check health_check).1 = Except.ok () ∧
    (wait_for_port_health_check health_check).2
      = (match health_check.port with
         | some _ => [Effect.sleep 1000]
         | none => []) ∧
    (∀ p, Effect.tcpConnect p ∉ (wait_for_port_health_check health_check).2) := by
  cases h : health_check.port <;> simp [wait_for_port_health_check, h]

/-- The dependency-wait fold appends one sleep per not-running dependency. -/
theorem dep_wait_fold (process_state : ProcessState) (project_name : String) :
    ∀ (deps : List String) (acc : List Effect),
      deps.foldl (fun acc dep_name =>
        if is_service_running process_state project_name dep_name then acc
        else acc ++ [Effect.sleep 1000]) acc
      = acc ++ (deps.filter
          (fun d => !is_service_running process_state project_name d)).map
            (fun _ => Effect.sleep 1000) := by
  intro deps
  induction deps with
  | nil => intro acc; simp
  | cons d ds ih =>
    intro acc
    by_cases h : is_service_running process_state project_name d
    · simp [List.foldl_cons, h, ih, List.filter_cons]
    · simp [List.foldl_cons, h, ih, List.filter_cons]

/-- C3 (code bug): `wait_for_dependencies` queries the registry exactly once
per declared dependency, sleeps a fixed second for each dependency that is
not running, and then returns `Ok(())` unconditionally — it never re-polls
and never reports a timeout. -/
theorem wait_for_dependencies_single_probe (service : Service)
    (process_state : ProcessState) (project_name : String) :
    (wait_for_dependencies service process_state project_name).1
      = Except.ok () ∧
    (wait_for_dependencies service process_state project_name).2
      = (service.dependencies.filter
          (fun d => !is_service_running process_state project_name d)).map
          (fun _ => Effect.sleep 1000) := by
  refine ⟨rfl, ?_⟩
  simpa using dep_wait_fold process_state project_name service.dependencies []

/-! ## Background mode -/

/-- The background loop spawns exactly the listed services in list order,
and every sleep it adds to the trace is the fixed 300 ms pacing delay. -/
theorem run_background_trace (project_name : String) (project : ProjectConfig)
    (spawner : Service → Except ToolError Child) (now : Nat) :
    ∀ (services : List Service) (st : ProcessState) (tr : List Effect),
      spawnedServices
          (run_background project_name project spawner now services st tr).2
        = spawnedServices tr ++ services.map Service.name ∧
      (∀ ms, Effect.sleep ms ∈
          (run_background project_name project spawner now services st tr).2 →
        Effect.sleep ms ∈ tr ∨ ms = 300) := by
  intro services
  induction services with
  | nil =>
    intro st tr
    exact ⟨by simp [run_background], fun ms hms => Or.inl (by simpa [run_background] using hms)⟩
  | cons service rest ih =>
    intro st tr
    simp only [run_background, spawn_service_command]
    cases hsp : spawner service with
    | ok child =>
      refine ⟨?_, ?_⟩
      · rw [(ih _ _).1]
        simp [spawnedServices]
      · intro ms hms
        rcases (ih _ _).2 ms hms with hin | h300
        · simp only [List.mem_append, List.mem_singleton] at hin
          rcases hin with ((hin | hin) | hin) | hin
          · exact Or.inl hin
          · exact absurd hin (by simp)
          · exact absurd hin (by simp)
          · exact Or.inr (by injection hin)
        · exact Or.inr h300
    | error e =>
      refine ⟨?_, ?_⟩
      · rw [(ih _ _).1]
        simp [spawnedServices]
      · intro ms hms
        rcases (ih _ _).2 ms hms with hin | h300
        · simp only [List.mem_append, List.mem_singleton] at hin
          rcases hin with (hin | hin) | hin
          · exact Or.inl hin
          · exact absurd hin (by simp)
          · exact Or.inr (by injection hin)
        · exact Or.inr h300

/-- C4 amended: in background mode `start` runs a reduced sequence inline:
it spawns exactly the filtered services in declaration order — not in
dependency-resolved order — performs no dependency waits and no health
checks (the only sleeps in its trace are the 300 ms pacing delays), and
always returns `Ok` after the loop. -/
theorem start_in_background_behavior (args : StartArgs) (project : ProjectConfig)
    (spawner : Service → Except ToolError Child) (now : Nat)
    (st : ProcessState) :
    (start_in_background args project spawner now st).1 = Except.ok () ∧
    spawnedServices (start_in_background args project spawner now st).2.2
      = ((project.services.getD []).filter
          (fun s => should_start_service args s)).map Service.name ∧
    (∀ ms, Effect.sleep ms ∈ (start_in_background args project spawner now st).2.2
      → ms = 300) := by
  refine ⟨rfl, ?_, ?_⟩
  · rw [start_in_background]
    rw [(run_background_trace project.name project spawner now _ st []).1]
    simp [spawnedServices]
  · intro ms hms
    rcases (run_background_trace project.name project spawner now _ st []).2
        ms hms with hin | h300
    · exact absurd hin (by simp)
    · exact h300

/-- C4 counterexample: on the project [b depends-on a, a], the foreground
path spawns [a, b] (dependency-resolved order) while the background path
spawns [b, a] (declaration order) — the per-service sequences differ, so
background mode does not execute the same sequence as the foreground
path. -/
theorem start_background_not_foreground_sequence :
    spawnedServices (execute (bgArgs true) true (Except.ok bgProject)
        (Except.ok ()) bgSpawner 0 ProcessState.new).2.2 = ["b", "a"] ∧
    spawnedServices (execute (bgArgs false) true (Except.ok bgProject)
        (Except.ok ()) bgSpawner 0 ProcessState.new).2.2 = ["a", "b"] ∧
    spawnedServices (execute (bgArgs true) true (Except.ok bgProject)
        (Except.ok ()) bgSpawner 0 ProcessState.new).2.2
      ≠ spawnedServices (execute (bgArgs false) true (Except.ok bgProject)
        (Except.ok ()) bgSpawner 0 ProcessState.new).2.2 := by
  refine ⟨by decide, by decide, by decide⟩

/-! ## Resolver: supporting lemmas -/

/-- A reflexive-transitive relation is preserved by a fold whose every step
preserves it. -/
theorem foldl_rel {α β : Type} (R : α → α → Prop) (f : α → β → α) (l : List β)
    (hrefl : ∀ a, R a a)
    (htrans : ∀ a b c, R a b → R b c → R a c)
    (hstep : ∀ a b, b ∈ l → R a (f a b)) (a : α) : R a (l.foldl f a) := by
  revert hstep
  induction l generalizing a with
  | nil => intro _; exact hrefl a
  | cons d ds ih =>
    intro hstep
    exact htrans _ _ _ (hstep a d (List.mem_cons_self d ds))
      (ih (f a d) (fun a b hb => hstep a b (List.mem_cons_of_mem _ hb)))

/-- A resolved service carries the name it was looked up by. -/
theorem findService_name {all : List Service} {d : String} {t : Service}
    (h : findService all d = some t) : t.name = d := by
  have := List.find?_some h
  simpa using this

/-- A resolved service is a member of the service list. -/
theorem findService_mem {all : List Service} {d : String} {t : Service}
    (h : findService all d = some t) : t ∈ all :=
  List.mem_of_find?_eq_some h

/-- Resolution is canonical: a resolved service resolves to itself by its
own name. -/
theorem findService_idem {all : List Service} {d : String} {t : Service}
    (h : findService all d = some t) : findService all t.name = some t := by
  rw [findService_name h]; exact h

/-- Growing the visited set cannot increase the unvisited count. -/
theorem unvisitedCard_anti (all : List Service) {V V' : List String}
    (h : V ⊆ V') : unvisitedCard all V' ≤ unvisitedCard all V := by
  apply Finset.card_le_card
  intro n hn
  simp only [Finset.mem_filter] at hn ⊢
  exact ⟨hn.1, fun hmem => hn.2 (h hmem)⟩

/-- Marking the name of an unvisited member strictly decreases the
unvisited count. -/
theorem unvisitedCard_insert_lt (all : List Service) (V : List String)
    {s : Service} (hmem : s ∈ all) (hnot : s.name ∉ V) :
    unvisitedCard all (s.name :: V) < unvisitedCard all V := by
  apply Finset.card_lt_card
  rw [Finset.ssubset_def]
  constructor
  · intro n hn
    simp only [Finset.mem_filter, List.mem_cons] at hn ⊢
    exact ⟨hn.1, fun h => hn.2 (Or.inr h)⟩
  · intro hsub
    have h1 : s.name ∈ (all.map Service.name).toFinset.filter
        (fun n => n ∉ V) := by
      simp only [Finset.mem_filter, List.mem_toFinset, List.mem_map]
      exact ⟨⟨s, hmem, rfl⟩, hnot⟩
    have h2 := hsub h1
    simp [Finset.mem_filter] at h2

/-- The unvisited count is always at most the number of services. -/
theorem unvisitedCard_lt_length_succ (all : List Service) (V : List String) :
    unvisitedCard all V < all.length + 1 := by
  have h1 : unvisitedCard all V ≤ (all.map Service.name).toFinset.card :=
    Finset.card_filter_le _ _
  have h2 : (all.map Service.name).toFinset.card ≤ (all.map Service.name).length :=
    (all.map Service.name).toFinset_card_le
  simp only [List.length_map] at h2
  omega

/-- `visit_service` only grows the visited set and only appends to the
output, at any fuel. -/
theorem visit_mono (fuel : Nat) (all : List Service) :
    ∀ (s : Service) (st : List String × List Service),
      st.1 ⊆ (visitService fuel all s st).1 ∧
      ∃ tail, (visitService fuel all s st).2 = st.2 ++ tail := by
  induction fuel with
  | zero =>
    intro s st
    exact ⟨fun _ h => h, [], by simp [visitService]⟩
  | succ fuel ih =>
    intro s st
    simp only [visitService]
    by_cases h : s.name ∈ st.1
    · rw [if_pos h]
      exact ⟨fun _ hh => hh, [], by simp⟩
    · rw [if_neg h]
      have hfold := foldl_rel
        (fun (a b : List String × List Service) =>
          a.1 ⊆ b.1 ∧ ∃ tail, b.2 = a.2 ++ tail)
        (fun acc dep_name =>
          match findService all dep_name with
          | some dep_service => visitService fuel all dep_service acc
          | none => acc)
        s.dependencies
        (fun a => ⟨fun _ hh => hh, [], by simp⟩)
        (by
          rintro a b c ⟨hab, ta, hta⟩ ⟨hbc, tb, htb⟩
          exact ⟨fun x hx => hbc (hab hx), ta ++ tb,
            by rw [htb, hta, List.append_assoc]⟩)
        (by
          intro a d _
          dsimp only
          cases hfs : findService all d with
          | some t => exact ih t a
          | none => exact ⟨fun _ hh => hh, [], by simp⟩)
        (s.name :: st.1, st.2)
      obtain ⟨hsub, tail, htail⟩ := hfold
      constructor
      · exact fun x hx => hsub (List.mem_cons_of_mem _ hx)
      · exact ⟨tail ++ [s], by rw [htail, List.append_assoc]⟩

/-- Any two sufficient fuels give the same `visit_service` result: the fuel
embedding is faithful to the unbounded Rust recursion. -/
theorem visit_fuel_irrel (fuel₁ : Nat) :
    ∀ (fuel₂ : Nat) (all : List Service) (s : Service)
      (st : List String × List Service),
      unvisitedCard all st.1 < fuel₁ → unvisitedCard all st.1 < fuel₂ →
      (findService all s.name = some s ∨ s.name ∈ st.1) →
      visitService fuel₁ all s st = visitService fuel₂ all s st := by
  induction fuel₁ with
  | zero => intro _ _ _ _ h; omega
  | succ fuel₁ ih =>
    intro fuel₂ all s st h₁ h₂ hcanon
    cases fuel₂ with
    | zero => omega
    | succ fuel₂ =>
      simp only [visitService]
      by_cases hmem : s.name ∈ st.1
      · rw [if_pos hmem, if_pos hmem]
      · rw [if_neg hmem, if_neg hmem]
        have hcan : findService all s.name = some s := by
          rcases hcanon with h | h
          · exact h
          · exact absurd h hmem
        have hs_mem : s ∈ all := findService_mem hcan
        have hdrop := unvisitedCard_insert_lt all st.1 hs_mem hmem
        have hfold : ∀ (deps : List String) (acc : List String × List Service),
            (s.name :: st.1) ⊆ acc.1 →
            deps.foldl (fun acc dep_name =>
              match findService all dep_name with
              | some dep_service => visitService fuel₁ all dep_service acc
              | none => acc) acc
            = deps.foldl (fun acc dep_name =>
              match findService all dep_name with
              | some dep_service => visitService fuel₂ all dep_service acc
              | none => acc) acc := by
          intro deps
          induction deps with
          | nil => intro acc _; rfl
          | cons d ds ihd =>
            intro acc hacc
            simp only [List.foldl_cons]
            cases hfs : findService all d with
            | none => exact ihd acc hacc
            | some t =>
              dsimp only
              have hle : unvisitedCard all acc.1 ≤
                  unvisitedCard all (s.name :: st.1) :=
                unvisitedCard_anti all hacc
              have e : visitService fuel₁ all t acc
                  = visitService fuel₂ all t acc :=
                ih fuel₂ all t acc (by omega) (by omega)
                  (Or.inl (findService_idem hfs))
              rw [e]
              exact ihd _ (List.Subset.trans hacc (visit_mono fuel₂ all t acc).1)
        rw [hfold s.dependencies (s.name :: st.1, st.2) (fun _ hh => hh)]

/-- Core invariant preservation of `visit_service`: with sufficient fuel,
a canonical (or already-visited) start service, and the DFS invariant for
the current stack, the invariant is restored after the call and the
service's name has been visited. -/
theorem visit_inv (fuel : Nat) :
    ∀ (all : List Service) (stackNames : List String) (s : Service)
      (st : List String × List Service),
      unvisitedCard all st.1 < fuel →
      (findService all s.name = some s ∨ s.name ∈ st.1) →
      SortInv all st.1 st.2 stackNames →
      SortInv all (visitService fuel all s st).1 (visitService fuel all s st).2
          stackNames ∧
        s.name ∈ (visitService fuel all s st).1 := by
  induction fuel with
  | zero => intro _ _ _ _ h; omega
  | succ fuel ih =>
    intro all stackNames s st hfuel hcanon hinv
    simp only [visitService]
    by_cases hmem : s.name ∈ st.1
    · rw [if_pos hmem]
      exact ⟨hinv, hmem⟩
    · rw [if_neg hmem]
      have hcan : findService all s.name = some s := by
        rcases hcanon with h | h
        · exact h
        · exact absurd h hmem
      have hs_mem : s ∈ all := findService_mem hcan
      have hnotblack : s.name ∉ st.2.map Service.name := by
        intro hb
        exact hmem ((hinv.cover s.name).2 (Or.inl hb))
      have hnotstack : s.name ∉ stackNames := by
        intro hg
        exact hmem ((hinv.cover s.name).2 (Or.inr hg))
      have hdrop := unvisitedCard_insert_lt all st.1 hs_mem hmem
      have hinv1 : SortInv all (s.name :: st.1) st.2 (s.name :: stackNames) := by
        refine ⟨?_, hinv.canon, hinv.nodupNames, ?_⟩
        · intro n
          rw [List.mem_cons, hinv.cover n, List.mem_cons]
          tauto
        · intro n hn
          rcases List.mem_cons.1 hn with h | h
          · subst h; exact hnotblack
          · exact hinv.disj n h
      have hfold : ∀ (deps : List String) (acc : List String × List Service),
          SortInv all acc.1 acc.2 (s.name :: stackNames) →
          (s.name :: st.1) ⊆ acc.1 →
          SortInv all
              (deps.foldl (fun acc dep_name =>
                match findService all dep_name with
                | some dep_service => visitService fuel all dep_service acc
                | none => acc) acc).1
              (deps.foldl (fun acc dep_name =>
                match findService all dep_name with
                | some dep_service => visitService fuel all dep_service acc
                | none => acc) acc).2 (s.name :: stackNames) ∧
            (s.name :: st.1) ⊆
              (deps.foldl (fun acc dep_name =>
                match findService all dep_name with
                | some dep_service => visitService fuel all dep_service acc
                | none => acc) acc).1 := by
        intro deps
        induction deps with
        | nil => intro acc hai has; exact ⟨hai, has⟩
        | cons d ds ihd =>
          intro acc hai has
          simp only [List.foldl_cons]
          cases hfs : findService all d with
          | none => exact ihd acc hai has
          | some t =>
            have hle : unvisitedCard all acc.1 ≤
                unvisitedCard all (s.name :: st.1) :=
              unvisitedCard_anti all has
            obtain ⟨hai', -⟩ := ih all (s.name :: stackNames) t acc (by omega)
              (Or.inl (findService_idem hfs)) hai
            exact ihd _ hai'
              (List.Subset.trans has (visit_mono fuel all t acc).1)
      obtain ⟨hinv2, hsub2⟩ := hfold s.dependencies (s.name :: st.1, st.2)
        hinv1 (fun _ hh => hh)
      have hsnotout : s.name ∉
          ((s.dependencies.foldl (fun acc dep_name =>
            match findService all dep_name with
            | some dep_service => visitService fuel all dep_service acc
            | none => acc) (s.name :: st.1, st.2)).2).map Service.name :=
        hinv2.disj s.name (List.mem_cons_self _ _)
      refine ⟨?_, hsub2 (List.mem_cons_self _ _)⟩
      refine ⟨?_, ?_, ?_, ?_⟩
      · intro n
        rw [hinv2.cover n]
        simp only [List.map_append, List.map_cons, List.map_nil,
          List.mem_append, List.mem_cons, List.mem_singleton,
          List.not_mem_nil, or_false]
        tauto
      · intro t ht
        rcases List.mem_append.1 ht with h | h
        · exact hinv2.canon t h
        · rw [List.mem_singleton.1 h]
          exact hcan
      · rw [List.map_append]
        rw [List.nodup_append]
        refine ⟨hinv2.nodupNames, by simp, ?_⟩
        intro a ha hb
        simp only [List.map_cons, List.map_nil, List.mem_singleton] at hb
        rw [hb] at ha
        exact hsnotout ha
      · intro n hn
        rw [List.map_append]
        rw [List.mem_append]
        rintro (h | h)
        · exact hinv2.disj n (List.mem_cons_of_mem _ hn) h
        · simp only [List.map_cons, List.map_nil, List.mem_singleton] at h
          rw [h] at hn
          exact hnotstack hn

/-- Combined characterization of the top-level resolver loop: starting from
a state satisfying the invariant with an empty stack, the fold over the
remaining services is independent of the (sufficient) fuel, restores the
invariant, and visits the name of every processed service. -/
theorem runSort_main (all : List Service) (fuel₁ fuel₂ : Nat)
    (h₁ : all.length < fuel₁) (h₂ : all.length < fuel₂) :
    ∀ (rest done : List Service) (st : List String × List Service),
      all = done ++ rest →
      SortInv all st.1 st.2 [] →
      (∀ x ∈ done, x.name ∈ st.1) →
      rest.foldl (fun st s => visitService fuel₁ all s st) st
        = rest.foldl (fun st s => visitService fuel₂ all s st) st ∧
      SortInv all (rest.foldl (fun st s => visitService fuel₁ all s st) st).1
        (rest.foldl (fun st s => visitService fuel₁ all s st) st).2 [] ∧
      (∀ x, x ∈ done ∨ x ∈ rest →
        x.name ∈ (rest.foldl (fun st s => visitService fuel₁ all s st) st).1) := by
  intro rest
  induction rest with
  | nil =>
    intro done st hall hinv hdone
    refine ⟨rfl, hinv, ?_⟩
    intro x hx
    rcases hx with hx | hx
    · exact hdone x hx
    · simp at hx
  | cons x rest' ih =>
    intro done st hall hinv hdone
    have hcard : unvisitedCard all st.1 < fuel₁ := by
      have := unvisitedCard_lt_length_succ all st.1
      omega
    have hcard₂ : unvisitedCard all st.1 < fuel₂ := by
      have := unvisitedCard_lt_length_succ all st.1
      omega
    have hx : findService all x.name = some x ∨ x.name ∈ st.1 := by
      rw [findService, hall, List.find?_append]
      cases hfd : List.find? (fun s => s.name == x.name) done with
      | some u =>
        right
        have hu : u ∈ done := List.mem_of_find?_eq_some hfd
        have hname : u.name = x.name := by simpa using List.find?_some hfd
        rw [← hname]
        exact hdone u hu
      | none =>
        left
        rw [Option.none_or]
        rw [List.find?_cons_of_pos _ (by simp)]
    obtain ⟨hinv', hmem'⟩ := visit_inv fuel₁ all [] x st hcard hx hinv
    have heq : visitService fuel₁ all x st = visitService fuel₂ all x st :=
      visit_fuel_irrel fuel₁ fuel₂ all x st hcard hcard₂ hx
    have hall' : all = (done ++ [x]) ++ rest' := by rw [hall]; simp
    have hdone' : ∀ y ∈ done ++ [x], y.name ∈ (visitService fuel₁ all x st).1 := by
      intro y hy
      rcases List.mem_append.1 hy with hy | hy
      · exact (visit_mono fuel₁ all x st).1 (hdone y hy)
      · rw [List.mem_singleton.1 hy]
        exact hmem'
    obtain ⟨iheq, ihinv, ihmem⟩ := ih (done ++ [x]) (visitService fuel₁ all x st)
      hall' hinv' hdone'
    simp only [List.foldl_cons]
    refine ⟨?_, ihinv, ?_⟩
    · rw [iheq, heq]
    · intro y hy
      apply ihmem
      rcases hy with hy | hy
      · exact Or.inl (List.mem_append.2 (Or.inl hy))
      · rcases List.mem_cons.1 hy with hy | hy
        · exact Or.inl (List.mem_append.2 (Or.inr (by simp [hy])))
        · exact Or.inr hy

/-- The empty DFS state satisfies the invariant. -/
theorem sortInv_empty (all : List Service) : SortInv all [] [] [] := by
  refine ⟨?_, ?_, ?_, ?_⟩ <;> simp

/-- With distinct names, every member resolves to itself. -/
theorem find_self_of_nodup : ∀ (all : List Service),
    (all.map Service.name).Nodup → ∀ x ∈ all, findService all x.name = some x := by
  intro all
  induction all with
  | nil => intro _ x hx; simp at hx
  | cons y rest ih =>
    intro h x hx
    simp only [List.map_cons, List.nodup_cons] at h
    rw [findService]
    by_cases heq : y.name = x.name
    · rw [List.find?_cons_of_pos _ (by simp [heq])]
      rcases List.mem_cons.1 hx with hx | hx
      · rw [hx]
      · exfalso
        apply h.1
        rw [heq]
        exact List.mem_map.2 ⟨x, hx, rfl⟩
    · rw [List.find?_cons_of_neg _ (by simp [heq])]
      rcases List.mem_cons.1 hx with hx | hx
      · exact absurd (by rw [hx]) heq
      · exact ih h.2 x hx

/-- C6: for every service list with distinct names (the data-model
invariant), the resolver terminates — any fuel beyond the list length
yields the same run, so the bounded embedding computes the limit of the
unbounded recursion — and its output is a permutation of the input: each
input service appears exactly once, cycles included. -/
theorem sort_terminates_and_is_permutation (services : List Service)
    (extra : Nat) (h : (services.map Service.name).Nodup) :
    List.Perm (sort_services_by_dependencies services) services ∧
    (runSort (services.length + 1 + extra) services services ([], [])).2
      = sort_services_by_dependencies services := by
  obtain ⟨heq, hinv, hmem⟩ := runSort_main services
    (services.length + 1 + extra) (services.length + 1)
    (by omega) (by omega) services [] ([], [])
    (by simp) (sortInv_empty services) (by simp)
  obtain ⟨-, hinv', hmem'⟩ := runSort_main services
    (services.length + 1) (services.length + 1)
    (by omega) (by omega) services [] ([], [])
    (by simp) (sortInv_empty services) (by simp)
  have hinvR : SortInv services
      (runSort (services.length + 1) services services ([], [])).1
      (runSort (services.length + 1) services services ([], [])).2 [] := hinv'
  have hmemR : ∀ x ∈ services,
      x.name ∈ (runSort (services.length + 1) services services ([], [])).1 :=
    fun x hx => hmem' x (Or.inr hx)
  constructor
  · have hLdef : sort_services_by_dependencies services
        = (runSort (services.length + 1) services services ([], [])).2 := rfl
    have hndL : (sort_services_by_dependencies services).Nodup := by
      rw [hLdef]
      exact hinvR.nodupNames.of_map
    have hsubL : sort_services_by_dependencies services ⊆ services := by
      intro t ht
      rw [hLdef] at ht
      exact findService_mem (hinvR.canon t ht)
    have hsubS : services ⊆ sort_services_by_dependencies services := by
      intro x hx
      rw [hLdef]
      have hv := hmemR x hx
      have hb := (hinvR.cover x.name).1 hv
      simp only [List.not_mem_nil, or_false] at hb
      obtain ⟨u, hu, hun⟩ := List.mem_map.1 hb
      have hcu := hinvR.canon u hu
      rw [hun, find_self_of_nodup services h x hx] at hcu
      have hux : u = x := by
        injection hcu with hh
        exact hh.symm
      rw [← hux]
      exact hu
    exact (List.Nodup.subperm hndL hsubL).antisymm
      (List.Nodup.subperm h.of_map hsubS)
  · have heqR : runSort (services.length + 1 + extra) services services ([], [])
        = runSort (services.length + 1) services services ([], []) := heq
    exact congrArg Prod.snd heqR

/-- Witness for C6 on a two-service dependency cycle. -/
theorem sort_terminates_and_is_permutation_witness :
    List.Perm (sort_services_by_dependencies [cycSvcA, cycSvcB])
      [cycSvcA, cycSvcB] ∧
    (runSort ([cycSvcA, cycSvcB].length + 1 + 5) [cycSvcA, cycSvcB]
        [cycSvcA, cycSvcB] ([], [])).2
      = sort_services_by_dependencies [cycSvcA, cycSvcB] :=
  sort_terminates_and_is_permutation [cycSvcA, cycSvcB] 5 (by decide)

/-- The visited `HashSet` influences `visit_service` only through
membership: membership-equivalent visited representations produce the same
output and membership-equivalent visited sets. -/
theorem visit_visited_set_irrel (fuel : Nat) :
    ∀ (all : List Service) (s : Service)
      (st₁ st₂ : List String × List Service),
      st₁.2 = st₂.2 → (∀ n, n ∈ st₁.1 ↔ n ∈ st₂.1) →
      (visitService fuel all s st₁).2 = (visitService fuel all s st₂).2 ∧
      (∀ n, n ∈ (visitService fuel all s st₁).1 ↔
        n ∈ (visitService fuel all s st₂).1) := by
  induction fuel with
  | zero =>
    intro all s st₁ st₂ h2 h1
    simpa [visitService] using ⟨h2, h1⟩
  | succ fuel ih =>
    intro all s st₁ st₂ h2 h1
    simp only [visitService]
    by_cases hmem : s.name ∈ st₁.1
    · rw [if_pos hmem, if_pos ((h1 s.name).1 hmem)]
      exact ⟨h2, h1⟩
    · rw [if_neg hmem, if_neg (fun hc => hmem ((h1 s.name).2 hc))]
      have hfold : ∀ (deps : List String)
          (acc₁ acc₂ : List String × List Service),
          acc₁.2 = acc₂.2 → (∀ n, n ∈ acc₁.1 ↔ n ∈ acc₂.1) →
          (deps.foldl (fun acc dep_name =>
            match findService all dep_name with
            | some dep_service => visitService fuel all dep_service acc
            | none => acc) acc₁).2
            = (deps.foldl (fun acc dep_name =>
              match findService all dep_name with
              | some dep_service => visitService fuel all dep_service acc
              | none => acc) acc₂).2 ∧
          (∀ n, n ∈ (deps.foldl (fun acc dep_name =>
            match findService all dep_name with
            | some dep_service => visitService fuel all dep_service acc
            | none => acc) acc₁).1 ↔
            n ∈ (deps.foldl (fun acc dep_name =>
              match findService all dep_name with
              | some dep_service => visitService fuel all dep_service acc
              | none => acc) acc₂).1) := by
        intro deps
        induction deps with
        | nil => intro acc₁ acc₂ h2' h1'; exact ⟨h2', h1'⟩
        | cons d ds ihd =>
          intro acc₁ acc₂ h2' h1'
          simp only [List.foldl_cons]
          cases hfs : findService all d with
          | none => exact ihd acc₁ acc₂ h2' h1'
          | some t =>
            obtain ⟨e2, e1⟩ := ih all t acc₁ acc₂ h2' h1'
            exact ihd _ _ e2 e1
      obtain ⟨hf2, hf1⟩ := hfold s.dependencies
        (s.name :: st₁.1, st₁.2) (s.name :: st₂.1, st₂.2) h2
        (by intro n; simp only [List.mem_cons]; rw [h1 n])
      exact ⟨by rw [hf2], hf1⟩

/-- C7: the resolver's output is a deterministic function of the input
order.  The embedding is a pure function — two runs on the same list are
definitionally equal — and the only unordered structure of the source, the
visited `HashSet`, influences the run only through membership: starting
from any two membership-equivalent representations of the visited set, the
whole resolver loop produces identical output sequences at any fuel. -/
theorem sort_deterministic (services : List Service) (fuel : Nat)
    (V₁ V₂ : List String) (L : List Service)
    (h : ∀ n, n ∈ V₁ ↔ n ∈ V₂) :
    (runSort fuel services services (V₁, L)).2
      = (runSort fuel services services (V₂, L)).2 := by
  suffices h' : ∀ (rest : List Service)
      (st₁ st₂ : List String × List Service),
      st₁.2 = st₂.2 → (∀ n, n ∈ st₁.1 ↔ n ∈ st₂.1) →
      (rest.foldl (fun st s => visitService fuel services s st) st₁).2
        = (rest.foldl (fun st s => visitService fuel services s st) st₂).2 ∧
      (∀ n, n ∈ (rest.foldl (fun st s => visitService fuel services s st) st₁).1
        ↔ n ∈ (rest.foldl (fun st s => visitService fuel services s st) st₂).1) by
    exact (h' services (V₁, L) (V₂, L) rfl h).1
  intro rest
  induction rest with
  | nil => intro st₁ st₂ h2 h1; exact ⟨h2, h1⟩
  | cons x rest' ihr =>
    intro st₁ st₂ h2 h1
    simp only [List.foldl_cons]
    obtain ⟨e2, e1⟩ := visit_visited_set_irrel fuel services x st₁ st₂ h2 h1
    exact ihr _ _ e2 e1

/-- Witness for C7 with two membership-equivalent visited lists. -/
theorem sort_deterministic_witness :
    (runSort 3 [cycSvcA] [cycSvcA] (["x", "y"], [])).2
      = (runSort 3 [cycSvcA] [cycSvcA] (["y", "x", "x"], [])).2 :=
  sort_deterministic [cycSvcA] 3 ["x", "y"] ["y", "x", "x"] [] (by
    intro n
    simp only [List.mem_cons, List.not_mem_nil, or_false]
    tauto)

/-- Topological soundness of `visit_service` on acyclic graphs.  `stack` is
the (ghost) chain of in-progress ancestors: each is canonical and reaches
`s` through dependency edges.  Under the DFS invariant, an output
satisfying `depsBefore` still satisfies it after the call, and the
canonical service of `s.name` ends up in the output. -/
theorem visit_topo (fuel : Nat) :
    ∀ (all : List Service) (stack : List Service) (s : Service)
      (st : List String × List Service),
      Acyclic all →
      unvisitedCard all st.1 < fuel →
      SortInv all st.1 st.2 (stack.map Service.name) →
      (findService all s.name = some s ∨ s.name ∈ st.2.map Service.name) →
      (∀ g ∈ stack, findService all g.name = some g) →
      (∀ g ∈ stack, Relation.TransGen (EdgeRel all) g s) →
      depsBefore all st.2 →
      depsBefore all (visitService fuel all s st).2 ∧
      (∀ t, findService all s.name = some t →
        t ∈ (visitService fuel all s st).2) := by
  induction fuel with
  | zero => intro _ _ _ _ _ h; omega
  | succ fuel ih =>
    intro all stack s st hacyc hfuel hinv hcanon hstackcan hchain hdb
    simp only [visitService]
    by_cases hmem : s.name ∈ st.1
    · rw [if_pos hmem]
      refine ⟨hdb, ?_⟩
      intro t ht
      by_cases hb : s.name ∈ st.2.map Service.name
      · obtain ⟨u, hu, hun⟩ := List.mem_map.1 hb
        have hcu := hinv.canon u hu
        rw [hun, ht] at hcu
        have hut : u = t := by
          injection hcu with hh
          exact hh.symm
        rw [← hut]
        exact hu
      · have hg : s.name ∈ stack.map Service.name := by
          rcases (hinv.cover s.name).1 hmem with h' | h'
          · exact absurd h' hb
          · exact h'
        have hc : findService all s.name = some s := by
          rcases hcanon with h' | h'
          · exact h'
          · exact absurd h' hb
        obtain ⟨g, hg', hgn⟩ := List.mem_map.1 hg
        have hcg := hstackcan g hg'
        rw [hgn, hc] at hcg
        have hgs : s = g := by injection hcg with hh
        exfalso
        apply hacyc s
        have hch := hchain g hg'
        rw [← hgs] at hch
        exact hch
    · rw [if_neg hmem]
      have hcan : findService all s.name = some s := by
        rcases hcanon with h' | h'
        · exact h'
        · exact absurd ((hinv.cover s.name).2 (Or.inl h')) hmem
      have hs_mem : s ∈ all := findService_mem hcan
      have hdrop := unvisitedCard_insert_lt all st.1 hs_mem hmem
      have hnotblack : s.name ∉ st.2.map Service.name := fun hb =>
        hmem ((hinv.cover s.name).2 (Or.inl hb))
      have hinv1 : SortInv all (s.name :: st.1) st.2
          ((s :: stack).map Service.name) := by
        refine ⟨?_, hinv.canon, hinv.nodupNames, ?_⟩
        · intro n
          simp only [List.map_cons, List.mem_cons]
          rw [hinv.cover n]
          tauto
        · intro n hn
          simp only [List.map_cons, List.mem_cons] at hn
          rcases hn with h' | h'
          · rw [h']
            exact hnotblack
          · exact hinv.disj n h'
      have hfold : ∀ (deps : List String) (acc : List String × List Service),
          (∀ d ∈ deps, d ∈ s.dependencies) →
          SortInv all acc.1 acc.2 ((s :: stack).map Service.name) →
          (s.name :: st.1) ⊆ acc.1 →
          depsBefore all acc.2 →
          SortInv all
              (deps.foldl (fun acc dep_name =>
                match findService all dep_name with
                | some dep_service => visitService fuel all dep_service acc
                | none => acc) acc).1
              (deps.foldl (fun acc dep_name =>
                match findService all dep_name with
                | some dep_service => visitService fuel all dep_service acc
                | none => acc) acc).2 ((s :: stack).map Service.name) ∧
            (s.name :: st.1) ⊆
              (deps.foldl (fun acc dep_name =>
                match findService all dep_name with
                | some dep_service => visitService fuel all dep_service acc
                | none => acc) acc).1 ∧
            depsBefore all
              (deps.foldl (fun acc dep_name =>
                match findService all dep_name with
                | some dep_service => visitService fuel all dep_service acc
                | none => acc) acc).2 ∧
            (∃ tail, (deps.foldl (fun acc dep_name =>
                match findService all dep_name with
                | some dep_service => visitService fuel all dep_service acc
                | none => acc) acc).2 = acc.2 ++ tail) ∧
            (∀ d ∈ deps, ∀ t, findService all d = some t →
              t ∈ (deps.foldl (fun acc dep_name =>
                match findService all dep_name with
                | some dep_service => visitService fuel all dep_service acc
                | none => acc) acc).2) := by
        intro deps
        induction deps with
        | nil =>
          intro acc _ hai has hdba
          refine ⟨hai, has, hdba, ⟨[], by simp⟩, ?_⟩
          intro d hd
          simp at hd
        | cons d ds ihd =>
          intro acc hsub hai has hdba
          simp only [List.foldl_cons]
          cases hfs : findService all d with
          | none =>
            obtain ⟨A, B, C, D, E⟩ := ihd acc
              (fun x hx => hsub x (List.mem_cons_of_mem _ hx)) hai has hdba
            refine ⟨A, B, C, D, ?_⟩
            intro d' hd' t hft
            rcases List.mem_cons.1 hd' with hd' | hd'
            · rw [hd'] at hft
              rw [hfs] at hft
              exact absurd hft (by simp)
            · exact E d' hd' t hft
          | some t =>
            dsimp only
            have hle : unvisitedCard all acc.1 ≤
                unvisitedCard all (s.name :: st.1) :=
              unvisitedCard_anti all has
            have hd_in : d ∈ s.dependencies := hsub d (List.mem_cons_self d ds)
            have hedge : EdgeRel all s t := ⟨d, hd_in, hfs⟩
            obtain ⟨hdbt, htcan⟩ := ih all (s :: stack) t acc hacyc (by omega)
              hai (Or.inl (findService_idem hfs))
              (by
                intro g hg
                rcases List.mem_cons.1 hg with hg | hg
                · rw [hg]
                  exact hcan
                · exact hstackcan g hg)
              (by
                intro g hg
                rcases List.mem_cons.1 hg with hg | hg
                · rw [hg]
                  exact Relation.TransGen.single hedge
                · exact Relation.TransGen.tail (hchain g hg) hedge)
              hdba
            obtain ⟨hai', -⟩ := visit_inv fuel all ((s :: stack).map Service.name)
              t acc (by omega) (Or.inl (findService_idem hfs)) hai
            obtain ⟨hmono, tail₀, htail₀⟩ := visit_mono fuel all t acc
            obtain ⟨A, B, C, D, E⟩ := ihd (visitService fuel all t acc)
              (fun x hx => hsub x (List.mem_cons_of_mem _ hx)) hai'
              (List.Subset.trans has hmono) hdbt
            obtain ⟨tail₁, htail₁⟩ := D
            refine ⟨A, B, C, ⟨tail₀ ++ tail₁, by rw [htail₁, htail₀, List.append_assoc]⟩, ?_⟩
            intro d' hd' t' hft
            rcases List.mem_cons.1 hd' with hd' | hd'
            · rw [hd'] at hft
              rw [hfs] at hft
              have htt : t' = t := by
                injection hft with hh
                exact hh.symm
              rw [htt]
              have ht_in : t ∈ (visitService fuel all t acc).2 :=
                htcan t (findService_idem hfs)
              rw [htail₁]
              exact List.mem_append.2 (Or.inl ht_in)
            · exact E d' hd' t' hft
      obtain ⟨hA, hB, hC, hD, hE⟩ := hfold s.dependencies (s.name :: st.1, st.2)
        (fun _ hx => hx) hinv1 (fun _ hh => hh) hdb
      constructor
      · intro l₁ u l₂ hdecomp d hd t hft
        rcases List.append_eq_append_iff.1 hdecomp with ⟨a', ha₁, ha₂⟩ | ⟨c', hc₁, hc₂⟩
        · cases a' with
          | nil =>
            simp only [List.nil_append] at ha₂
            have hu : u = s := by
              injection ha₂ with hh
              exact hh.symm
            rw [List.append_nil] at ha₁
            rw [← ha₁] at hE
            apply hE d
            · rw [← hu]
              exact hd
            · exact hft
          | cons w w' =>
            simp only [List.cons_append] at ha₂
            have : ([] : List Service) = w' ++ u :: l₂ := by injection ha₂
            exact absurd this.symm (by simp)
        · cases c' with
          | nil =>
            simp only [List.nil_append] at hc₂
            have hu : u = s := by injection hc₂ with hh
            rw [List.append_nil] at hc₁
            rw [hc₁] at hE
            apply hE d
            · rw [← hu]
              exact hd
            · exact hft
          | cons w w' =>
            simp only [List.cons_append] at hc₂
            have hu : u = w := by injection hc₂ with hh
            have hst2 : (s.dependencies.foldl (fun acc dep_name =>
                match findService all dep_name with
                | some dep_service => visitService fuel all dep_service acc
                | none => acc) (s.name :: st.1, st.2)).2 = l₁ ++ u :: w' := by
              rw [hc₁, hu]
            exact hC l₁ u w' hst2 d hd t hft
      · intro t ht
        rw [hcan] at ht
        have hts : t = s := by
          injection ht with hh
          exact hh.symm
        rw [hts]
        exact List.mem_append.2 (Or.inr (List.mem_singleton.2 rfl))

/-- The resolver loop preserves topological soundness on acyclic inputs:
every service processed so far has its canonical resolution in the
output, and the output satisfies `depsBefore`. -/
theorem runSort_topo (all : List Service) (hacyc : Acyclic all) :
    ∀ (rest done : List Service) (st : List String × List Service),
      all = done ++ rest →
      SortInv all st.1 st.2 [] →
      depsBefore all st.2 →
      (∀ x ∈ done, ∀ t, findService all x.name = some t → t ∈ st.2) →
      depsBefore all
        (rest.foldl (fun st s => visitService (all.length + 1) all s st) st).2 ∧
      (∀ x ∈ done ++ rest, ∀ t, findService all x.name = some t →
        t ∈ (rest.foldl (fun st s => visitService (all.length + 1) all s st) st).2)
    := by
  intro rest
  induction rest with
  | nil =>
    intro done st hall hinv hdb hdone
    refine ⟨hdb, ?_⟩
    intro x hx t ht
    simp only [List.append_nil] at hx
    exact hdone x hx t ht
  | cons x rest' ihr =>
    intro done st hall hinv hdb hdone
    have hcard : unvisitedCard all st.1 < all.length + 1 :=
      unvisitedCard_lt_length_succ all st.1
    have hx : findService all x.name = some x ∨
        x.name ∈ st.2.map Service.name := by
      rw [findService, hall, List.find?_append]
      cases hfd : List.find? (fun s => s.name == x.name) done with
      | some u =>
        right
        have hu : u ∈ done := List.mem_of_find?_eq_some hfd
        have hname : u.name = x.name := by simpa using List.find?_some hfd
        have hres : findService all u.name = some u := by
          rw [findService, hname, hall, List.find?_append, hfd]
          rfl
        have hins := hdone u hu u hres
        rw [← hname]
        exact List.mem_map.2 ⟨u, hins, rfl⟩
      | none =>
        left
        rw [Option.none_or]
        rw [List.find?_cons_of_pos _ (by simp)]
    have hx1 : findService all x.name = some x ∨ x.name ∈ st.1 := by
      rcases hx with h | h
      · exact Or.inl h
      · exact Or.inr ((hinv.cover x.name).2 (Or.inl h))
    obtain ⟨hdb', hxmem⟩ := visit_topo (all.length + 1) all [] x st hacyc hcard
      hinv hx (by intro g hg; simp at hg) (by intro g hg; simp at hg) hdb
    obtain ⟨hinv', -⟩ := visit_inv (all.length + 1) all [] x st hcard hx1 hinv
    obtain ⟨-, tail₀, htail₀⟩ := visit_mono (all.length + 1) all x st
    have hall' : all = (done ++ [x]) ++ rest' := by
      rw [hall]
      simp
    have hdone' : ∀ y ∈ done ++ [x], ∀ t, findService all y.name = some t →
        t ∈ (visitService (all.length + 1) all x st).2 := by
      intro y hy t ht
      rcases List.mem_append.1 hy with hy | hy
      · have hmem := hdone y hy t ht
        rw [htail₀]
        exact List.mem_append.2 (Or.inl hmem)
      · rw [List.mem_singleton.1 hy] at ht
        exact hxmem t ht
    obtain ⟨ihdb, ihmem⟩ := ihr (done ++ [x])
      (visitService (all.length + 1) all x st) hall' hinv' hdb' hdone'
    simp only [List.foldl_cons]
    refine ⟨ihdb, ?_⟩
    intro y hy t ht
    apply ihmem y ?_ t ht
    rcases List.mem_append.1 hy with hy | hy
    · exact List.mem_append.2 (Or.inl (List.mem_append.2 (Or.inl hy)))
    · rcases List.mem_cons.1 hy with hy | hy
      · exact List.mem_append.2 (Or.inl (List.mem_append.2 (Or.inr (by simp [hy]))))
      · exact List.mem_append.2 (Or.inr hy)

/-- C1: for every acyclic dependency graph, the resolver's output places
every service strictly after every service that one of its dependency
names resolves to. -/
theorem sort_services_topological (services : List Service)
    (hacyc : Acyclic services) :
    depsBefore services (sort_services_by_dependencies services) := by
  have h := runSort_topo services hacyc services [] ([], [])
    (by simp) (sortInv_empty services)
    (by
      intro l₁ u l₂ hdec
      simp at hdec)
    (by intro x hx; simp at hx)
  exact h.1

/-- No dependency edge leaves the dependency-free witness service. -/
theorem topo_no_edge_from_a (t : Service) :
    ¬ EdgeRel [topoSvcB, topoSvcA] topoSvcA t := by
  rintro ⟨d, hd, -⟩
  simp [topoSvcA] at hd

/-- The witness graph [b depends-on a, a] is acyclic. -/
theorem topo_acyclic : Acyclic [topoSvcB, topoSvcA] := by
  intro s hs
  have hs_mem : s ∈ [topoSvcB, topoSvcA] := by
    obtain ⟨b, -, hedge⟩ := Relation.TransGen.tail'_iff.1 hs
    obtain ⟨d, -, hfind⟩ := hedge
    exact findService_mem hfind
  simp only [List.mem_cons, List.not_mem_nil, or_false] at hs_mem
  rcases hs_mem with hsb | hsa
  · rw [hsb] at hs
    obtain ⟨c, hc, hrest⟩ := Relation.TransGen.head'_iff.1 hs
    obtain ⟨d, hd, hfind⟩ := hc
    have hd' : d = "a" := by simpa [topoSvcB] using hd
    rw [hd'] at hfind
    have hfa : findService [topoSvcB, topoSvcA] "a" = some topoSvcA := by rfl
    rw [hfa] at hfind
    have hc' : c = topoSvcA := by
      injection hfind with hh
      exact hh.symm
    rw [hc'] at hrest
    rcases Relation.ReflTransGen.cases_head hrest with heq | ⟨c₂, hc₂, -⟩
    · exact absurd heq (by decide)
    · exact topo_no_edge_from_a c₂ hc₂
  · rw [hsa] at hs
    obtain ⟨c, hc, -⟩ := Relation.TransGen.head'_iff.1 hs
    exact topo_no_edge_from_a c hc

/-- Witness for C1 on the acyclic two-service graph. -/
theorem sort_services_topological_witness :
    depsBefore [topoSvcB, topoSvcA]
      (sort_services_by_dependencies [topoSvcB, topoSvcA]) :=
  sort_services_topological [topoSvcB, topoSvcA] topo_acyclic

end Devspin
